import Mathlib

/-!
Verification of the sabin task-tracking core: frontmatter codec, numbering,
directory-link resolution, and the status-update store, shallowly embedded
from the TypeScript sources (packages/core/src/config.ts, sabinResolver.ts,
packages/cli/src/commands (createTask, updateStatus), and
packages/vscode-extension/src/services/taskService.ts).
Text is modelled as the list of its characters; a directory is an ordered
association list of (filename, content) pairs, preserving listing order.
-/

namespace Sabin

/-! ## Lines: splitting a character stream into newline-separated lines -/

def splitLines : List Char → List (List Char)
  | [] => [[]]
  | c :: r =>
    if c = '\n' then [] :: splitLines r
    else
      match splitLines r with
      | [] => [[c]]
      | l :: ls => (c :: l) :: ls

def joinLines : List (List Char) → List Char
  | [] => []
  | [l] => l
  | l :: ls => l ++ '\n' :: joinLines ls

theorem splitLines_ne_nil (cs : List Char) : splitLines cs ≠ [] := by
  induction cs with
  | nil => simp [splitLines]
  | cons c r ih =>
    simp only [splitLines]
    by_cases h : c = '\n'
    · simp [h]
    · simp only [h, if_false]
      cases hr : splitLines r with
      | nil => simp
      | cons l ls => simp

theorem splitLines_cons_newline (r : List Char) :
    splitLines ('\n' :: r) = [] :: splitLines r := by
  simp [splitLines]

theorem splitLines_cons_of_ne (c : Char) (r : List Char) (h : ¬ c = '\n')
    (l : List Char) (ls : List (List Char)) (hr : splitLines r = l :: ls) :
    splitLines (c :: r) = (c :: l) :: ls := by
  simp only [splitLines, h, if_false, hr]

theorem joinLines_cons_cons (l l2 : List Char) (ls : List (List Char)) :
    joinLines (l :: l2 :: ls) = l ++ '\n' :: joinLines (l2 :: ls) := rfl

theorem joinLines_splitLines (cs : List Char) : joinLines (splitLines cs) = cs := by
  induction cs with
  | nil => rfl
  | cons c r ih =>
    cases hr : splitLines r with
    | nil => exact absurd hr (splitLines_ne_nil r)
    | cons l ls =>
      rw [hr] at ih
      by_cases h : c = '\n'
      · subst h
        rw [splitLines_cons_newline, hr, joinLines_cons_cons, ih]
        rfl
      · rw [splitLines_cons_of_ne c r h l ls hr]
        cases ls with
        | nil =>
          simp only [joinLines] at ih ⊢
          simp [ih]
        | cons l2 ls2 =>
          rw [joinLines_cons_cons] at ih ⊢
          simp [ih]

theorem splitLines_no_newline (l : List Char) (h : '\n' ∉ l) : splitLines l = [l] := by
  induction l with
  | nil => rfl
  | cons c r ih =>
    simp only [List.mem_cons, not_or] at h
    have hc : ¬ c = '\n' := fun hx => h.1 hx.symm
    exact splitLines_cons_of_ne c r hc r [] (ih h.2)

theorem splitLines_append_newline (l rest : List Char) (h : '\n' ∉ l) :
    splitLines (l ++ '\n' :: rest) = l :: splitLines rest := by
  induction l with
  | nil => simpa using splitLines_cons_newline rest
  | cons c r ih =>
    simp only [List.mem_cons, not_or] at h
    have hc : ¬ c = '\n' := fun hx => h.1 hx.symm
    rw [List.cons_append]
    exact splitLines_cons_of_ne c _ hc r (splitLines rest) (ih h.2)

theorem splitLines_joinLines (ls : List (List Char)) (hne : ls ≠ [])
    (h : ∀ l ∈ ls, '\n' ∉ l) : splitLines (joinLines ls) = ls := by
  induction ls with
  | nil => exact absurd rfl hne
  | cons l ls ih =>
    cases ls with
    | nil =>
      simp only [joinLines]
      exact splitLines_no_newline l (h l (List.mem_cons_self l []))
    | cons l2 ls2 =>
      rw [joinLines_cons_cons]
      rw [splitLines_append_newline l _ (h l (List.mem_cons_self _ _))]
      rw [ih (by simp) (fun x hx => h x (List.mem_cons_of_mem _ hx))]

/-! ## Frontmatter codec

Modelled from the spec: the YAML frontmatter serialization used by
`parseTask`/`writeTask` lives in the external gray-matter/js-yaml
dependency, not under src/.  Per the spec (section 4.1), `decode` splits a
leading delimited block into metadata plus body (empty metadata and the
unchanged text when no block is present, a parse failure — `none` — when
the block is malformed), and `encode` emits the metadata lines followed by
the body unchanged, quoting values containing structurally significant
characters (colons, brackets, leading quotes/dashes — and newlines, so
that decode(encode(x)) reproduces the metadata exactly). -/

/-- Escape a value for inclusion inside double quotes. -/
def escapeVal : List Char → List Char
  | [] => []
  | c :: r =>
    if c = '\\' then '\\' :: '\\' :: escapeVal r
    else if c = '"' then '\\' :: '"' :: escapeVal r
    else if c = '\n' then '\\' :: 'n' :: escapeVal r
    else c :: escapeVal r

/-- Parse the remainder of a double-quoted value (after the opening quote);
the closing quote must end the line. -/
def parseQuotedVal : List Char → Option (List Char)
  | [] => none
  | c :: r =>
    if c = '"' then (if r = [] then some [] else none)
    else if c = '\\' then
      match r with
      | [] => none
      | e :: r2 => (parseQuotedVal r2).map (fun v => (if e = 'n' then '\n' else e) :: v)
    else (parseQuotedVal r).map (fun v => c :: v)

theorem parseQuotedVal_escape (v : List Char) :
    parseQuotedVal (escapeVal v ++ ['"']) = some v := by
  induction v with
  | nil => rfl
  | cons c r ih =>
    by_cases h1 : c = '\\'
    · subst h1
      simp only [escapeVal, if_pos rfl, List.cons_append, parseQuotedVal]
      norm_num
      simp [ih]
    · by_cases h2 : c = '"'
      · subst h2
        simp only [escapeVal, h1, if_false, if_pos rfl, List.cons_append, parseQuotedVal]
        norm_num
        simp [ih]
      · by_cases h3 : c = '\n'
        · subst h3
          simp only [escapeVal, h1, h2, if_false, if_pos rfl, List.cons_append, parseQuotedVal]
          norm_num
          simp [ih]
        · have he : escapeVal (c :: r) = c :: escapeVal r := by
            simp [escapeVal, h1, h2, h3]
          rw [he, List.cons_append]
          have hp : parseQuotedVal (c :: (escapeVal r ++ ['"'])) =
              (parseQuotedVal (escapeVal r ++ ['"'])).map (fun v => c :: v) := by
            rw [parseQuotedVal.eq_def]
            simp [h1, h2]
          rw [hp, ih]
          rfl

/-- Characters that are structurally significant in the block syntax. -/
def specialChar (c : Char) : Bool :=
  c = ':' || c = '[' || c = ']' || c = '{' || c = '}' || c = '\n' || c = '"' || c = '\\'

/-- A value must be quoted when it contains a structural character or starts
with a quote or dash (spec section 4.1). -/
def needsQuote (v : List Char) : Bool :=
  v.any specialChar ||
    (match v with
     | [] => false
     | c :: _ => c = '"' || c = '\'' || c = '-' || c = ' ')

def quoteVal (v : List Char) : List Char :=
  if needsQuote v then '"' :: (escapeVal v ++ ['"']) else v

/-- One encoded metadata line: `key: value`. -/
def encLine (k v : List Char) : List Char :=
  k ++ ':' :: ' ' :: quoteVal v

/-- Drop the single space that follows the colon of an encoded line. -/
def dropOneSpace : List Char → List Char
  | [] => []
  | c :: r => if c = ' ' then r else c :: r

def isQuoted : List Char → Bool
  | [] => false
  | c :: _ => c = '"'

/-- Parse one metadata line of shape `key: value`. -/
def parseLine (line : List Char) : Option (List Char × List Char) :=
  let s := line.span (fun c => c ≠ ':')
  match s.2 with
  | [] => none
  | _ :: rest =>
    if s.1 = [] then none
    else
      let v := dropOneSpace rest
      if isQuoted v then (parseQuotedVal v.tail).map (fun w => (s.1, w))
      else some (s.1, v)

theorem span_append_of_all {p : Char → Bool} (k : List Char) (c : Char) (rest : List Char)
    (hk : ∀ x ∈ k, p x) (hc : ¬ p c) :
    (k ++ c :: rest).span p = (k, c :: rest) := by
  induction k with
  | nil =>
    simp [List.span_eq_take_drop, List.takeWhile, List.dropWhile, hc]
  | cons a k ih =>
    have ha := hk a (List.mem_cons_self a k)
    have ih2 := ih (fun x hx => hk x (List.mem_cons_of_mem a hx))
    simp only [List.span_eq_take_drop] at ih2 ⊢
    simp only [List.cons_append, List.takeWhile_cons, List.dropWhile_cons, ha]
    simp only [Prod.mk.injEq] at ih2 ⊢
    simp only [if_true, ha]
    exact ⟨by simp [ih2.1], by simp [ih2.2]⟩

theorem parseLine_encLine (k v : List Char) (hne : k ≠ [])
    (hcolon : ∀ x ∈ k, x ≠ ':') :
    parseLine (encLine k v) = some (k, v) := by
  have hspan : (k ++ ':' :: ' ' :: quoteVal v).span (fun c => c ≠ ':') =
      (k, ':' :: ' ' :: quoteVal v) := by
    apply span_append_of_all
    · intro x hx
      simp [hcolon x hx]
    · simp
  unfold encLine parseLine
  rw [hspan]
  simp only [if_neg hne]
  have hdrop : dropOneSpace (' ' :: quoteVal v) = quoteVal v := by
    simp [dropOneSpace]
  simp only [hdrop]
  by_cases hq : needsQuote v
  · have hqv : quoteVal v = '"' :: (escapeVal v ++ ['"']) := by
      simp [quoteVal, hq]
    rw [hqv]
    simp [isQuoted, parseQuotedVal_escape]
  · have hqv : quoteVal v = v := by
      simp [quoteVal, hq]
    rw [hqv]
    have hnq : isQuoted v = false := by
      cases v with
      | nil => rfl
      | cons c r =>
        simp only [isQuoted, decide_eq_false_iff_not]
        intro h
        apply hq
        simp [needsQuote, h]
    simp [hnq]

theorem mem_splitLines_no_newline (cs : List Char) :
    ∀ l ∈ splitLines cs, '\n' ∉ l := by
  induction cs with
  | nil =>
    intro l hl
    simp only [splitLines, List.mem_singleton] at hl
    simp [hl]
  | cons c r ih =>
    intro l hl
    by_cases h : c = '\n'
    · subst h
      rw [splitLines_cons_newline] at hl
      rcases List.mem_cons.mp hl with h1 | h1
      · simp [h1]
      · exact ih l h1
    · cases hr : splitLines r with
      | nil => exact absurd hr (splitLines_ne_nil r)
      | cons x xs =>
        rw [splitLines_cons_of_ne c r h x xs hr] at hl
        rcases List.mem_cons.mp hl with h1 | h1
        · subst h1
          intro hmem
          rcases List.mem_cons.mp hmem with h2 | h2
          · exact h h2.symm
          · exact ih x (hr ▸ List.mem_cons_self x xs) h2
        · exact ih l (hr ▸ List.mem_cons_of_mem x h1)

/-! ## Whole-document codec -/

/-- The frontmatter block delimiter line. -/
def dashes : List Char := ['-', '-', '-']

/-- Consume metadata lines until the closing delimiter; fail (parse error)
when the delimiter is missing or a line is not a key/value pair. -/
def decodeMetaLines :
    List (List Char) → Option (List (List Char × List Char) × List (List Char))
  | [] => none
  | l :: ls =>
    if l = dashes then some ([], ls)
    else
      match parseLine l with
      | none => none
      | some p => (decodeMetaLines ls).map (fun pr => (p :: pr.1, pr.2))

/-- Decode a raw document into (metadata pairs, body).  With no leading
delimited block the metadata is empty and the body is the raw text. -/
def matterParse (raw : List Char) : Option (List (List Char × List Char) × List Char) :=
  match splitLines raw with
  | [] => some ([], raw)
  | l :: ls =>
    if l = dashes then (decodeMetaLines ls).map (fun pr => (pr.1, joinLines pr.2))
    else some ([], raw)

/-- Encode (metadata pairs, body) into a raw document. -/
def matterStringify (ps : List (List Char × List Char)) (body : List Char) : List Char :=
  joinLines (dashes :: (ps.map (fun p => encLine p.1 p.2) ++ dashes :: splitLines body))

theorem escapeVal_no_newline (v : List Char) : '\n' ∉ escapeVal v := by
  induction v with
  | nil => simp [escapeVal]
  | cons c r ih =>
    by_cases h1 : c = '\\'
    · simp [escapeVal, h1, ih]
    · by_cases h2 : c = '"'
      · simp [escapeVal, h1, h2, ih]
      · by_cases h3 : c = '\n'
        · simp [escapeVal, h1, h2, h3, ih]
        · simp only [escapeVal, h1, h2, h3, if_false]
          intro hmem
          rcases List.mem_cons.mp hmem with h | h
          · exact h3 h.symm
          · exact ih h

theorem quoteVal_no_newline (v : List Char) : '\n' ∉ quoteVal v := by
  by_cases hq : needsQuote v
  · simp only [quoteVal, hq, if_true]
    intro hmem
    rcases List.mem_cons.mp hmem with h | h
    · exact absurd h.symm (by decide)
    · rcases List.mem_append.mp h with h | h
      · exact escapeVal_no_newline v h
      · rcases List.mem_singleton.mp h with h
        exact absurd h (by decide)
  · simp only [quoteVal, hq, if_false]
    intro hmem
    apply hq
    simp only [needsQuote, Bool.or_eq_true, List.any_eq_true]
    exact Or.inl ⟨'\n', hmem, by decide⟩

theorem encLine_no_newline (k v : List Char) (hk : '\n' ∉ k) :
    '\n' ∉ encLine k v := by
  intro hmem
  unfold encLine at hmem
  rcases List.mem_append.mp hmem with h | h
  · exact hk h
  · rcases List.mem_cons.mp h with h | h
    · exact absurd h (by decide)
    · rcases List.mem_cons.mp h with h | h
      · exact absurd h (by decide)
      · exact quoteVal_no_newline v h

theorem encLine_ne_dashes (k v : List Char) : encLine k v ≠ dashes := by
  intro h
  have hc : ':' ∈ encLine k v := by
    unfold encLine
    exact List.mem_append_right k (List.mem_cons_self _ _)
  rw [h] at hc
  exact absurd hc (by decide)

/-- Well-formed metadata keys: nonempty, no colon, no newline. -/
def wfKey (k : List Char) : Prop :=
  k ≠ [] ∧ (∀ x ∈ k, x ≠ ':') ∧ '\n' ∉ k

theorem decodeMetaLines_encode (ps : List (List Char × List Char))
    (rest : List (List Char)) (hk : ∀ p ∈ ps, wfKey p.1) :
    decodeMetaLines (ps.map (fun p => encLine p.1 p.2) ++ dashes :: rest) =
      some (ps, rest) := by
  induction ps with
  | nil => simp [decodeMetaLines]
  | cons p ps ih =>
    obtain ⟨h1, h2, _⟩ := hk p (List.mem_cons_self p ps)
    simp only [List.map_cons, List.cons_append, decodeMetaLines,
      encLine_ne_dashes p.1 p.2, if_false, parseLine_encLine p.1 p.2 h1 h2,
      List.append_eq]
    rw [ih (fun q hq => hk q (List.mem_cons_of_mem p hq))]
    rfl

/-- Round trip at the level of raw metadata pairs. -/
theorem matterParse_stringify (ps : List (List Char × List Char)) (body : List Char)
    (hk : ∀ p ∈ ps, wfKey p.1) :
    matterParse (matterStringify ps body) = some (ps, body) := by
  unfold matterStringify matterParse
  have hlines : ∀ l ∈ dashes :: (ps.map (fun p => encLine p.1 p.2) ++
      dashes :: splitLines body), '\n' ∉ l := by
    intro l hl
    rcases List.mem_cons.mp hl with h | h
    · subst h; decide
    · rcases List.mem_append.mp h with h | h
      · obtain ⟨p, hp, hpe⟩ := List.mem_map.mp h
        subst hpe
        exact encLine_no_newline p.1 p.2 (hk p hp).2.2
      · rcases List.mem_cons.mp h with h | h
        · subst h; decide
        · exact mem_splitLines_no_newline body l h
  rw [splitLines_joinLines _ (by simp) hlines]
  simp only [if_pos rfl]
  rw [decodeMetaLines_encode ps (splitLines body) hk]
  simp [joinLines_splitLines]

/-! ## Frontmatter record and the Task data model

From packages/core/src/types.ts: a Task carries status, optional title,
optional plan, optional workingDir, the body content, and its path. -/

structure Frontmatter where
  status : Option String
  title : Option String
  plan : Option String
  workingDir : Option String
deriving DecidableEq, Repr

/-- The metadata pairs a frontmatter record serializes to, in the field
order used by the source (status, title, plan, workingDir); absent
(undefined) fields are omitted entirely, as in writeTask. -/
def fmPairs (fm : Frontmatter) : List (List Char × List Char) :=
  (fm.status.map (fun v => ("status".data, v.data))).toList ++
    (fm.title.map (fun v => ("title".data, v.data))).toList ++
    (fm.plan.map (fun v => ("plan".data, v.data))).toList ++
    (fm.workingDir.map (fun v => ("workingDir".data, v.data))).toList

/-- First-match lookup of a metadata key (property access on the parsed
data object). -/
def lookupVal (k : List Char) : List (List Char × List Char) → Option (List Char)
  | [] => none
  | p :: ps => if p.1 = k then some p.2 else lookupVal k ps

/-- Reading the parsed pairs back into a record. -/
def fmOfPairs (ps : List (List Char × List Char)) : Frontmatter :=
  { status := (lookupVal "status".data ps).map String.mk
    title := (lookupVal "title".data ps).map String.mk
    plan := (lookupVal "plan".data ps).map String.mk
    workingDir := (lookupVal "workingDir".data ps).map String.mk }

theorem fmPairs_keys_wf (fm : Frontmatter) : ∀ p ∈ fmPairs fm, wfKey p.1 := by
  intro p hp
  have hkeys : p.1 = "status".data ∨ p.1 = "title".data ∨ p.1 = "plan".data ∨
      p.1 = "workingDir".data := by
    simp only [fmPairs, List.mem_append, Option.mem_toList, Option.mem_def,
      Option.map_eq_some'] at hp
    rcases hp with ((⟨v, _, hv⟩ | ⟨v, _, hv⟩) | ⟨v, _, hv⟩) | ⟨v, _, hv⟩ <;>
      simp [← hv]
  rcases hkeys with h | h | h | h <;> rw [h] <;>
    exact ⟨by decide, by decide, by decide⟩

theorem strMk_data (s : String) : String.mk s.data = s := by
  cases s
  rfl

theorem fmOfPairs_fmPairs (fm : Frontmatter) : fmOfPairs (fmPairs fm) = fm := by
  obtain ⟨st, ti, pl, wd⟩ := fm
  cases st <;> cases ti <;> cases pl <;> cases wd <;>
    simp [fmOfPairs, fmPairs, lookupVal, strMk_data]

/-- A task record (packages/core/src/types.ts).  `title` is optional in
practice (parseTask copies a possibly-undefined data.title), so it is
modelled as an Option despite the TS type annotation. -/
structure Task where
  status : String
  title : Option String
  plan : Option String
  workingDir : Option String
  content : List Char
  path : String
deriving DecidableEq, Repr

/-- JS falsy test for an optional string (undefined, null-as-empty, ""). -/
def falsyStr : Option (List Char) → Bool
  | none => true
  | some v => v.isEmpty

/-- Core parseTask (packages/core/src/config.ts lines 60-71), applied to the
decoded metadata and body.  Note: the returned object carries NO workingDir
field — the source object literal omits it. -/
def parseTaskData (ps : List (List Char × List Char)) (body : List Char)
    (p : String) : Task :=
  { status := if falsyStr (lookupVal "status".data ps) then "open"
      else String.mk ((lookupVal "status".data ps).getD [])
    title := (lookupVal "title".data ps).map String.mk
    plan := (lookupVal "plan".data ps).map String.mk
    workingDir := none
    content := body
    path := p }

/-- Core parseTask on the raw file text; `none` is the gray-matter
ParseError on a malformed frontmatter block. -/
def parseTask (raw : List Char) (p : String) : Option Task :=
  (matterParse raw).map (fun pr => parseTaskData pr.1 pr.2 p)

/-- TaskService.parseTask (vscode-extension taskService.ts lines 192-206):
same defaulting for status, title defaults to the filename stem, and it DOES
read workingDir. -/
def tsParseTaskData (ps : List (List Char × List Char)) (body : List Char)
    (stem : String) : Task :=
  { status := if falsyStr (lookupVal "status".data ps) then "open"
      else String.mk ((lookupVal "status".data ps).getD [])
    title := some (if falsyStr (lookupVal "title".data ps) then stem
      else String.mk ((lookupVal "title".data ps).getD []))
    plan := (lookupVal "plan".data ps).map String.mk
    workingDir := (lookupVal "workingDir".data ps).map String.mk
    content := body
    path := stem }

/-- Core writeTask (config.ts lines 73-83): drop path/content, filter the
undefined fields, serialize frontmatter (insertion order: status, title,
plan, workingDir) followed by the body. -/
def writeTask (t : Task) : List Char :=
  matterStringify
    (fmPairs { status := some t.status, title := t.title, plan := t.plan,
               workingDir := t.workingDir }) t.content

/-! ## Numbering service (config.ts getNextTaskNumber, lines 85-117) -/

/-- JS String.prototype.padStart with a single pad character. -/
def padStart (s : String) (n : Nat) (c : Char) : String :=
  String.mk (List.replicate (n - s.data.length) c ++ s.data)

/-- Strip a literal leading run of characters. -/
def dropPre : List Char → List Char → Option (List Char)
  | [], l => some l
  | _ :: _, [] => none
  | p :: ps, c :: cs => if c = p then dropPre ps cs else none

/-- Strip a literal trailing run of characters. -/
def dropSuf (suf l : List Char) : Option (List Char) :=
  (dropPre suf.reverse l.reverse).map List.reverse

/-- Numeric value of a digit run. -/
def digitsVal (ds : List Char) : Nat :=
  ds.foldl (fun a c => 10 * a + (c.toNat - '0'.toNat)) 0

/-- The regex `^<pfx>-(\d+)\.md$` of getNextTaskNumber, as literal shape
matching (faithful for any project prefix built from regex-literal
characters, e.g. alphanumerics). -/
def matchTaskNumber (pfx : String) (name : String) : Option Nat :=
  match dropPre (pfx.data ++ ['-']) name.data with
  | none => none
  | some rest =>
    match dropSuf ['.', 'm', 'd'] rest with
    | none => none
    | some ds => if ds ≠ [] ∧ ds.all Char.isDigit then some (digitsVal ds) else none

/-- One iteration of the loop `if (num > maxNumber) maxNumber = num`. -/
def bumpMax (pfx : String) (m : Nat) (f : String) : Nat :=
  match matchTaskNumber pfx f with
  | some n => if n > m then n else m
  | none => m

/-- The accumulation loop over all filenames. -/
def maxTaskNumber (pfx : String) (files : List String) : Nat :=
  files.foldl (bumpMax pfx) 0

/-- getNextTaskNumber.  The two readdir results are `none` when reading the
corresponding subdirectory throws; one try block wraps both enumerations
and the accumulation loop, so any failure discards everything. -/
def getNextTaskNumber (openRes completedRes : Option (List String))
    (pfx : String) (padding : Nat) : String :=
  let maxNumber :=
    match openRes, completedRes with
    | some o, some c => maxTaskNumber pfx (o ++ c)
    | _, _ => 0
  padStart (toString (maxNumber + 1)) padding '0'

/-! ## Paths and the directory resolver (packages/core/src/sabinResolver.ts)

A filesystem path is its list of components, already canonical (absolute,
no "." / ".." / empty components).  node's path.relative strips the common
component run and prepends one ".." per remaining source component;
path.resolve folds the relative components, popping on "..". -/

def pathRelative : List String → List String → List String
  | a :: as, b :: bs =>
    if a = b then pathRelative as bs
    else List.replicate (as.length + 1) ".." ++ b :: bs
  | as, bs => List.replicate as.length ".." ++ bs

def pathResolve : List String → List String → List String
  | base, [] => base
  | base, c :: rest =>
    if c = ".." then pathResolve base.dropLast rest
    else if c = "." then pathResolve base rest
    else pathResolve (base ++ [c]) rest

def canonicalPath (p : List String) : Prop :=
  ∀ c ∈ p, c ≠ ".." ∧ c ≠ "." ∧ c ≠ ""

instance (p : List String) : Decidable (canonicalPath p) :=
  decidable_of_iff (∀ c ∈ p, c ≠ ".." ∧ c ≠ "." ∧ c ≠ "") Iff.rfl

theorem pathResolve_plain : ∀ cs, canonicalPath cs →
    ∀ base, pathResolve base cs = base ++ cs := by
  intro cs
  induction cs with
  | nil => intro _ base; simp [pathResolve]
  | cons c rest ih =>
    intro h base
    obtain ⟨h1, h2, _⟩ := h c (List.mem_cons_self c rest)
    simp only [pathResolve, h1, h2, if_false]
    rw [ih (fun x hx => h x (List.mem_cons_of_mem c hx)) (base ++ [c])]
    simp

theorem pathResolve_pops (ys : List String) : ∀ xs cs,
    pathResolve (xs ++ ys) (List.replicate ys.length ".." ++ cs) =
      pathResolve xs cs := by
  induction ys using List.reverseRecOn with
  | nil => intro xs cs; simp
  | append_singleton zs z ih =>
    intro xs cs
    have hlen : (zs ++ [z]).length = zs.length + 1 := by simp
    rw [hlen, List.replicate_succ, List.cons_append]
    have hshape : xs ++ (zs ++ [z]) = (xs ++ zs) ++ [z] := by simp
    rw [hshape]
    simp only [pathResolve, if_pos rfl]
    rw [List.dropLast_concat]
    exact ih xs cs

theorem pathRelative_eq_nil_iff (as : List String) : ∀ bs,
    pathRelative as bs = [] ↔ as = bs := by
  induction as with
  | nil =>
    intro bs
    cases bs <;> simp [pathRelative]
  | cons a as ih =>
    intro bs
    cases bs with
    | nil => simp [pathRelative]
    | cons b bs =>
      by_cases hab : a = b
      · subst hab
        have hred : pathRelative (a :: as) (a :: bs) = pathRelative as bs := by
          simp [pathRelative]
        rw [hred, ih bs]
        simp
      · simp [pathRelative, hab]

theorem pathResolve_pathRelative (as : List String) : ∀ bs pre,
    canonicalPath bs →
    pathResolve (pre ++ as) (pathRelative as bs) = pre ++ bs := by
  induction as with
  | nil =>
    intro bs pre hb
    simp only [pathRelative, List.length_nil, List.replicate_zero, List.nil_append,
      List.append_nil]
    exact pathResolve_plain bs hb pre
  | cons a as ih =>
    intro bs pre hb
    cases bs with
    | nil =>
      have hrel : pathRelative (a :: as) [] =
          List.replicate (a :: as).length ".." ++ [] := rfl
      rw [hrel, pathResolve_pops (a :: as) pre []]
      simp [pathResolve]
    | cons b bs =>
      by_cases hab : a = b
      · subst hab
        have hred : pathRelative (a :: as) (a :: bs) = pathRelative as bs := by
          simp [pathRelative]
        rw [hred]
        have hshape : pre ++ a :: as = (pre ++ [a]) ++ as := by simp
        rw [hshape]
        rw [ih bs (pre ++ [a]) (fun x hx => hb x (List.mem_cons_of_mem a hx))]
        simp
      · simp only [pathRelative, hab, if_false]
        have hlen : as.length + 1 = (a :: as).length := by simp
        rw [hlen, pathResolve_pops (a :: as) pre (b :: bs)]
        exact pathResolve_plain (b :: bs) hb pre

/-- The parsed content of a .sabin link file: the JSON object's optional
sabinDir field (none = field missing; [] = empty string path). -/
structure SabinLinkConfig where
  sabinDir : Option (List String)
deriving DecidableEq, Repr

/-- The stat outcome for the .sabin path; for a file the associated value is
the JSON.parse result of its content (none = malformed JSON). -/
inductive FsNode where
  | directory : FsNode
  | file : Option SabinLinkConfig → FsNode
  | missing : FsNode
  | other : FsNode
deriving DecidableEq, Repr

structure ResolveResult where
  sabinDir : List String
  isLinked : Bool
  projectRoot : List String
deriving DecidableEq, Repr

/-- resolveSabinDir (sabinResolver.ts lines 12-54).  Only an ENOENT stat is
translated to the init hint; every other failure (malformed JSON, missing
field) propagates. -/
def resolveSabinDir (startDir : List String) (stat : FsNode) :
    Except String ResolveResult :=
  match stat with
  | .directory => .ok ⟨startDir ++ [".sabin"], false, startDir⟩
  | .file parsed =>
    match parsed with
    | none => .error "Unexpected token in JSON"
    | some cfg =>
      match cfg.sabinDir with
      | none => .error ".sabin file must contain \"sabinDir\" field"
      | some p =>
        if p = [] then .error ".sabin file must contain \"sabinDir\" field"
        else .ok ⟨pathResolve startDir p, true, startDir⟩
  | .missing => .error ".sabin not found. Run \"sabin init\" first."
  | .other => .error ".sabin exists but is neither a file nor directory"

/-- writeSabinLink (sabinResolver.ts lines 59-71): persist the relative path
from the project root to the target as the link's JSON content. -/
def writeSabinLink (projectRoot targetSabinDir : List String) : SabinLinkConfig :=
  { sabinDir := some (pathRelative projectRoot targetSabinDir) }

/-- TaskService.resolveSabinDir (taskService.ts lines 54-104): the catch
swallows every resolution failure and falls back to the traditional
workspaceRoot/.sabin path with isLinked = false. -/
def tsResolveSabinDir (workspaceRoot : List String) (isSabinRoot : Bool)
    (stat : FsNode) : List String × Bool :=
  if isSabinRoot then (workspaceRoot, false)
  else
    let sabinPath := workspaceRoot ++ [".sabin"]
    match stat with
    | .directory => (sabinPath, false)
    | .file parsed =>
      match parsed with
      | none => (sabinPath, false)
      | some cfg =>
        match cfg.sabinDir with
        | none => (sabinPath, false)
        | some p =>
          if p = [] then (sabinPath, false)
          else (pathResolve workspaceRoot p, true)
    | .missing => (sabinPath, false)
    | .other => (sabinPath, false)

/-- getWorkingDirName (packages/core/src/workingDir.ts): relative path from
the shared root's parent to the project root, "." when empty. -/
def getWorkingDirName (sabinDir projectRoot : List String) : String :=
  let rel := pathRelative sabinDir.dropLast projectRoot
  if rel = [] then "." else String.intercalate "/" rel

/-! ## Task store (packages/cli/src/commands: updateStatus, createTask)

The filesystem relevant to the store is the pair of status subdirectories,
each an ordered listing of (filename, raw content). -/

inductive Subdir where
  | openSub : Subdir
  | completedSub : Subdir
deriving DecidableEq, Repr

structure TasksDir where
  openFiles : List (String × List Char)
  completedFiles : List (String × List Char)
deriving DecidableEq, Repr

/-- The filesystem operations updateStatus performs, in order. -/
inductive FsOp where
  | writeFile : Subdir → String → List Char → FsOp
  | unlinkFile : Subdir → String → FsOp
deriving DecidableEq, Repr

def nameIs (n : String) : String × List Char → Bool :=
  fun f => f.1 = n

/-- fs.writeFile semantics on a directory listing: overwrite in place when
the name exists, append otherwise. -/
def writeFileTo (files : List (String × List Char)) (n : String) (c : List Char) :
    List (String × List Char) :=
  if files.any (nameIs n) then
    files.map (fun f => if f.1 = n then (n, c) else f)
  else files ++ [(n, c)]

/-- fs.unlink semantics: remove every entry with the name. -/
def unlinkFrom (files : List (String × List Char)) (n : String) :
    List (String × List Char) :=
  files.filter (fun f => ¬ f.1 = n)

def applyOp (st : TasksDir) : FsOp → TasksDir
  | .writeFile .openSub n c => { st with openFiles := writeFileTo st.openFiles n c }
  | .writeFile .completedSub n c =>
    { st with completedFiles := writeFileTo st.completedFiles n c }
  | .unlinkFile .openSub n => { st with openFiles := unlinkFrom st.openFiles n }
  | .unlinkFile .completedSub n =>
    { st with completedFiles := unlinkFrom st.completedFiles n }

def applyOps (st : TasksDir) (ops : List FsOp) : TasksDir :=
  ops.foldl applyOp st

def hasFile (files : List (String × List Char)) (n : String) : Bool :=
  files.any (nameIs n)

/-- Number of files carrying this name across both subdirectories. -/
def countName (st : TasksDir) (n : String) : Nat :=
  st.openFiles.countP (nameIs n) + st.completedFiles.countP (nameIs n)

/-- Literal leading-run test. -/
def startsWithChars : List Char → List Char → Bool
  | [], _ => true
  | _ :: _, [] => false
  | p :: ps, c :: cs => p = c && startsWithChars ps cs

/-- JS String.prototype.includes: the pattern occurs somewhere in the text. -/
def containsSub : List Char → List Char → Bool
  | l, sub =>
    if startsWithChars sub l then true
    else
      match l with
      | [] => false
      | _ :: r => containsSub r sub

/-- The find in updateStatus (link.ts lines 218-248): first filename that
CONTAINS the task id as a substring (or equals id.md), scanning the open
listing first. -/
def findInDir (files : List (String × List Char)) (taskId : String) :
    Option (String × List Char) :=
  files.find? (fun f => containsSub f.1.data taskId.data || f.1 = taskId ++ ".md")

def findTaskFile (st : TasksDir) (taskId : String) :
    Option (Subdir × String × List Char) :=
  match findInDir st.openFiles taskId with
  | some f => some (.openSub, f.1, f.2)
  | none =>
    match findInDir st.completedFiles taskId with
    | some f => some (.completedSub, f.1, f.2)
    | none => none

def pathOf (d : Subdir) (n : String) : String :=
  match d with
  | .openSub => ".sabin/tasks/open/" ++ n
  | .completedSub => ".sabin/tasks/completed/" ++ n

def validStatuses : List String :=
  ["open", "ready", "in_progress", "review", "completed"]

/-- updateStatus (link.ts lines 200-301): validate the status, find the
task (open first), parse it, set status (and workingDir when moving to
in_progress under a linked root), then either rewrite in place or write at
the new location first and delete the old one. -/
def updateStatus (st : TasksDir) (isLinked : Bool) (wdName : String)
    (taskId newStatus : String) : Except String (TasksDir × List FsOp) :=
  if ¬ validStatuses.contains newStatus then
    .error ("Invalid status: " ++ newStatus ++
      ". Must be one of: open, ready, in_progress, review, completed")
  else
    match findTaskFile st taskId with
    | none => .error ("Task " ++ taskId ++ " not found")
    | some (d, fname, c) =>
      match parseTask c (pathOf d fname) with
      | none => .error ("ParseError: " ++ pathOf d fname)
      | some t0 =>
        let t1 := { t0 with status := newStatus }
        let t2 := if newStatus = "in_progress" ∧ isLinked = true then
            { t1 with workingDir := some wdName } else t1
        -- shouldBeInCompleted !== isInCompleted, as a propositional iff
        if newStatus = "completed" ↔ d = Subdir.completedSub then
          let ops := [FsOp.writeFile d fname (writeTask t2)]
          .ok (applyOps st ops, ops)
        else
          let newDir := if newStatus = "completed" then Subdir.completedSub
            else Subdir.openSub
          let t3 := { t2 with path := pathOf newDir fname }
          let ops := [FsOp.writeFile newDir fname (writeTask t3),
            FsOp.unlinkFile d fname]
          .ok (applyOps st ops, ops)

/-! ## CLI createTask (create-task command, link.ts lines 87-186) -/

/-- The CLI create sees the open and completed listings plus the legacy
`tasks/resolved` listing its duplicate check consults. -/
structure CliDirs where
  openFiles : List (String × List Char)
  completedFiles : List (String × List Char)
  resolvedNames : List String
deriving DecidableEq, Repr

/-- JS String.prototype.trim. -/
def trimStr (s : String) : String :=
  String.mk (((s.data.dropWhile Char.isWhitespace).reverse.dropWhile
    Char.isWhitespace).reverse)

def mkCreatedTask (taskId filename title body : String) : Task :=
  { status := "open"
    title := some (if title = "" then "Task " ++ taskId else title)
    plan := none
    workingDir := none
    content := body.data
    path := ".sabin/tasks/open/" ++ filename }

/-- createTask: with a custom id, trim it, reject empty, then probe
tasks/open/ and tasks/RESOLVED/ for a collision before writing into open/;
with no custom id, generate the next number (no collision probe). -/
def createTaskCli (d : CliDirs) (number : Option String) (title body : String)
    (pfx : String) (padding : Nat) : Except String (CliDirs × String) :=
  match number with
  | some num =>
    let customId := trimStr num
    if customId = "" then .error "Task ID cannot be empty."
    else
      let filename := customId ++ ".md"
      if d.openFiles.any (nameIs filename) then
        .error ("Task " ++ customId ++ " already exists in open/")
      else if d.resolvedNames.contains filename then
        .error ("Task " ++ customId ++ " already exists in resolved/")
      else
        let t := mkCreatedTask customId filename title body
        .ok ({ d with openFiles := writeFileTo d.openFiles filename (writeTask t) },
          filename)
  | none =>
    let nextNumber := getNextTaskNumber (some (d.openFiles.map (fun f => f.1)))
      (some (d.completedFiles.map (fun f => f.1))) pfx padding
    let taskId := pfx ++ "-" ++ nextNumber
    let filename := taskId ++ ".md"
    let t := mkCreatedTask taskId filename title body
    .ok ({ d with openFiles := writeFileTo d.openFiles filename (writeTask t) },
      filename)

/-- TaskService.createTask duplicate probe (taskService.ts lines 352-372):
it checks open/ AND completed/. -/
def tsCreateDuplicateCheck (openNames completedNames : List String)
    (taskId : String) : Except String Unit :=
  let filename := taskId ++ ".md"
  if openNames.contains filename then
    .error ("Task " ++ taskId ++ " already exists in open/")
  else if completedNames.contains filename then
    .error ("Task " ++ taskId ++ " already exists in completed/")
  else .ok ()

/-! ## Numbering lemmas -/

theorem dropPre_eq_some_iff (p : List Char) : ∀ l r, dropPre p l = some r ↔ l = p ++ r := by
  induction p with
  | nil =>
    intro l r
    simp [dropPre, eq_comm]
  | cons a p ih =>
    intro l r
    cases l with
    | nil => simp [dropPre]
    | cons x xs =>
      by_cases hx : x = a
      · subst hx
        simp [dropPre, ih]
      · simp [dropPre, hx]

theorem dropSuf_eq_some_iff (suf l r : List Char) :
    dropSuf suf l = some r ↔ l = r ++ suf := by
  unfold dropSuf
  constructor
  · intro h
    obtain ⟨w, hw, hwr⟩ := Option.map_eq_some'.mp h
    have hl := (dropPre_eq_some_iff _ _ _).mp hw
    have : l = (suf.reverse ++ w).reverse := by
      rw [← hl, List.reverse_reverse]
    rw [this, List.reverse_append, List.reverse_reverse, hwr]
  · intro h
    subst h
    have hw : dropPre suf.reverse (r ++ suf).reverse = some r.reverse := by
      rw [dropPre_eq_some_iff, List.reverse_append]
    rw [hw]
    simp

/-- The declarative shape `<prefix>-<digits>.md` with its numeric value. -/
def taskNumberShape (pfx name : String) (n : Nat) : Prop :=
  ∃ ds : List Char, name.data = pfx.data ++ '-' :: (ds ++ ['.', 'm', 'd']) ∧
    ds ≠ [] ∧ ds.all Char.isDigit = true ∧ digitsVal ds = n

theorem matchTaskNumber_iff (pfx name : String) (n : Nat) :
    matchTaskNumber pfx name = some n ↔ taskNumberShape pfx name n := by
  unfold matchTaskNumber taskNumberShape
  constructor
  · intro h
    cases hp1 : dropPre (pfx.data ++ ['-']) name.data with
    | none => rw [hp1] at h; cases h
    | some rest =>
      simp only [hp1] at h
      cases hp2 : dropSuf ['.', 'm', 'd'] rest with
      | none => rw [hp2] at h; cases h
      | some ds =>
        simp only [hp2] at h
        by_cases hc : ds ≠ [] ∧ ds.all Char.isDigit = true
        · rw [if_pos hc] at h
          refine ⟨ds, ?_, hc.1, hc.2, by injection h⟩
          have h1 := (dropPre_eq_some_iff _ _ _).mp hp1
          have h2 := (dropSuf_eq_some_iff _ _ _).mp hp2
          rw [h1, h2]
          simp
        · rw [if_neg hc] at h
          cases h
  · rintro ⟨ds, hshape, hne, hdig, hval⟩
    have hp1 : dropPre (pfx.data ++ ['-']) name.data = some (ds ++ ['.', 'm', 'd']) := by
      rw [dropPre_eq_some_iff, hshape]
      simp
    have hp2 : dropSuf ['.', 'm', 'd'] (ds ++ ['.', 'm', 'd']) = some ds := by
      rw [dropSuf_eq_some_iff]
    simp only [hp1, hp2]
    rw [if_pos ⟨hne, hdig⟩, hval]

theorem bumpMax_ge_acc (pfx : String) (m : Nat) (f : String) :
    m ≤ bumpMax pfx m f := by
  unfold bumpMax
  cases hm : matchTaskNumber pfx f with
  | none => exact le_refl m
  | some n =>
    show m ≤ if n > m then n else m
    by_cases h : n > m
    · rw [if_pos h]
      omega
    · rw [if_neg h]

theorem bumpMax_ge_match (pfx : String) (m n : Nat) (f : String)
    (h : matchTaskNumber pfx f = some n) : n ≤ bumpMax pfx m f := by
  unfold bumpMax
  rw [h]
  show n ≤ if n > m then n else m
  by_cases hgt : n > m
  · rw [if_pos hgt]
  · rw [if_neg hgt]
    omega

theorem foldl_bumpMax_ge_acc (pfx : String) :
    ∀ (files : List String) (m0 : Nat), m0 ≤ files.foldl (bumpMax pfx) m0 := by
  intro files
  induction files with
  | nil => intro m0; simp
  | cons f fs ih =>
    intro m0
    rw [List.foldl_cons]
    exact le_trans (bumpMax_ge_acc pfx m0 f) (ih (bumpMax pfx m0 f))

theorem foldl_bumpMax_ge_mem (pfx : String) :
    ∀ (files : List String) (m0 : Nat) (f : String) (n : Nat), f ∈ files →
      matchTaskNumber pfx f = some n → n ≤ files.foldl (bumpMax pfx) m0 := by
  intro files
  induction files with
  | nil => intro m0 f n hf; cases hf
  | cons g gs ih =>
    intro m0 f n hf hm
    rw [List.foldl_cons]
    rcases List.mem_cons.mp hf with h | h
    · subst h
      exact le_trans (bumpMax_ge_match pfx m0 n f hm)
        (foldl_bumpMax_ge_acc pfx gs (bumpMax pfx m0 f))
    · exact ih (bumpMax pfx m0 g) f n h hm

theorem foldl_bumpMax_attained (pfx : String) :
    ∀ (files : List String) (m0 : Nat),
      files.foldl (bumpMax pfx) m0 = m0 ∨
        ∃ f ∈ files, matchTaskNumber pfx f = some (files.foldl (bumpMax pfx) m0) := by
  intro files
  induction files with
  | nil => intro m0; exact Or.inl rfl
  | cons g gs ih =>
    intro m0
    rw [List.foldl_cons]
    rcases ih (bumpMax pfx m0 g) with h | ⟨f, hf, hm⟩
    · rw [h]
      cases hg : matchTaskNumber pfx g with
      | none =>
        left
        simp [bumpMax, hg]
      | some n =>
        by_cases hgt : n > m0
        · right
          refine ⟨g, List.mem_cons_self g gs, ?_⟩
          rw [hg]
          simp [bumpMax, hg, hgt]
        · left
          simp [bumpMax, hg, hgt]
    · exact Or.inr ⟨f, List.mem_cons_of_mem g hf, hm⟩

theorem foldl_bumpMax_all_none (pfx : String) :
    ∀ (files : List String) (m0 : Nat),
      (∀ f ∈ files, matchTaskNumber pfx f = none) →
        files.foldl (bumpMax pfx) m0 = m0 := by
  intro files
  induction files with
  | nil => intro m0 _; rfl
  | cons g gs ih =>
    intro m0 h
    rw [List.foldl_cons]
    have hg : bumpMax pfx m0 g = m0 := by
      simp [bumpMax, h g (List.mem_cons_self g gs)]
    rw [hg]
    exact ih m0 (fun f hf => h f (List.mem_cons_of_mem g hf))

/-! ## Store lemmas -/

theorem countP_map_replace (files : List (String × List Char)) (n : String)
    (c : List Char) :
    (files.map (fun f => if f.1 = n then (n, c) else f)).countP (nameIs n) =
      files.countP (nameIs n) := by
  induction files with
  | nil => rfl
  | cons g gs ih =>
    by_cases hg : g.1 = n
    · simp [List.countP_cons, nameIs, hg, ih]
    · simp [List.countP_cons, nameIs, hg, ih]

theorem countP_writeFileTo (files : List (String × List Char)) (n : String)
    (c : List Char) :
    (writeFileTo files n c).countP (nameIs n) = max 1 (files.countP (nameIs n)) := by
  unfold writeFileTo
  by_cases hmem : files.any (nameIs n) = true
  · rw [if_pos hmem, countP_map_replace]
    have hpos : 0 < files.countP (nameIs n) := by
      rw [List.countP_pos_iff]
      obtain ⟨a, ha, hpa⟩ := List.any_eq_true.mp hmem
      exact ⟨a, ha, hpa⟩
    omega
  · rw [if_neg hmem]
    have hzero : files.countP (nameIs n) = 0 := by
      rw [List.countP_eq_zero]
      intro a ha hpa
      exact hmem (List.any_eq_true.mpr ⟨a, ha, hpa⟩)
    rw [List.countP_append, hzero]
    simp [nameIs]

theorem countP_unlinkFrom (files : List (String × List Char)) (n : String) :
    (unlinkFrom files n).countP (nameIs n) = 0 := by
  rw [List.countP_eq_zero]
  intro a ha hpa
  rw [unlinkFrom, List.mem_filter] at ha
  have h1 : a.1 ≠ n := by simpa using ha.2
  have h2 : a.1 = n := by simpa [nameIs] using hpa
  exact h1 h2

theorem hasFile_iff_countP_pos (files : List (String × List Char)) (n : String) :
    hasFile files n = true ↔ 0 < files.countP (nameIs n) := by
  rw [hasFile, List.any_eq_true, List.countP_pos_iff]

theorem hasFile_of_mem (files : List (String × List Char)) (n : String)
    (c : List Char) (h : (n, c) ∈ files) : hasFile files n = true :=
  List.any_eq_true.mpr ⟨(n, c), h, by simp [nameIs]⟩

theorem subdir_ne_completed (d : Subdir) (h : d ≠ Subdir.completedSub) :
    d = Subdir.openSub := by
  cases d
  · rfl
  · exact absurd rfl h

theorem findTaskFile_open (st : TasksDir) (taskId fname : String) (c : List Char)
    (h : findTaskFile st taskId = some (Subdir.openSub, fname, c)) :
    (fname, c) ∈ st.openFiles := by
  unfold findTaskFile at h
  cases hfo : findInDir st.openFiles taskId with
  | some g =>
    rw [hfo] at h
    simp only [Option.some.injEq, Prod.mk.injEq] at h
    have hg : g = (fname, c) := by
      cases g
      simp only [Prod.mk.injEq]
      exact ⟨h.2.1, h.2.2⟩
    rw [← hg]
    exact List.mem_of_find?_eq_some hfo
  | none =>
    rw [hfo] at h
    cases hfc : findInDir st.completedFiles taskId with
    | some g => rw [hfc] at h; simp at h
    | none => rw [hfc] at h; simp at h

theorem findTaskFile_completed (st : TasksDir) (taskId fname : String)
    (c : List Char)
    (h : findTaskFile st taskId = some (Subdir.completedSub, fname, c)) :
    (fname, c) ∈ st.completedFiles := by
  unfold findTaskFile at h
  cases hfo : findInDir st.openFiles taskId with
  | some g => rw [hfo] at h; simp at h
  | none =>
    rw [hfo] at h
    cases hfc : findInDir st.completedFiles taskId with
    | some g =>
      rw [hfc] at h
      simp only [Option.some.injEq, Prod.mk.injEq] at h
      have hg : g = (fname, c) := by
        cases g
        simp only [Prod.mk.injEq]
        exact ⟨h.2.1, h.2.2⟩
      rw [← hg]
      exact List.mem_of_find?_eq_some hfc
    | none => rw [hfc] at h; simp at h

/-- Inversion of a successful updateStatus: the task was found somewhere, the
resulting state is the trace applied to the input state, and the trace is
either a single in-place write in the task's directory, or a write into the
other (status-implied) directory followed by the unlink of the original. -/
theorem updateStatus_ok_inv (st : TasksDir) (lk : Bool) (wd taskId ns : String)
    (st' : TasksDir) (tr : List FsOp)
    (hok : updateStatus st lk wd taskId ns = .ok (st', tr)) :
    ∃ d fname c, findTaskFile st taskId = some (d, fname, c) ∧
      st' = applyOps st tr ∧
      ((d = (if ns = "completed" then Subdir.completedSub else Subdir.openSub) ∧
        ∃ nc, tr = [FsOp.writeFile d fname nc]) ∨
       (d ≠ (if ns = "completed" then Subdir.completedSub else Subdir.openSub) ∧
        ∃ nc, tr = [FsOp.writeFile
          (if ns = "completed" then Subdir.completedSub else Subdir.openSub)
          fname nc, FsOp.unlinkFile d fname])) := by
  unfold updateStatus at hok
  by_cases hvalid : ¬ validStatuses.contains ns = true
  · rw [if_pos hvalid] at hok
    cases hok
  · rw [if_neg hvalid] at hok
    cases hft : findTaskFile st taskId with
    | none => rw [hft] at hok; cases hok
    | some dfc =>
      obtain ⟨d, fname, c⟩ := dfc
      rw [hft] at hok
      cases hparse : parseTask c (pathOf d fname) with
      | none => simp only [hparse] at hok; cases hok
      | some t0 =>
        simp only [hparse] at hok
        refine ⟨d, fname, c, rfl, ?_⟩
        by_cases hcond : ns = "completed" ↔ d = Subdir.completedSub
        · rw [if_pos hcond] at hok
          obtain ⟨h1, h2⟩ := Prod.mk.injEq .. ▸ (Except.ok.injEq .. ▸ hok)
          refine ⟨by rw [← h1, ← h2], Or.inl ⟨?_, _, h2.symm⟩⟩
          by_cases hns : ns = "completed"
          · rw [if_pos hns]
            exact hcond.mp hns
          · rw [if_neg hns]
            exact subdir_ne_completed d (fun hd => hns (hcond.mpr hd))
        · rw [if_neg hcond] at hok
          obtain ⟨h1, h2⟩ := Prod.mk.injEq .. ▸ (Except.ok.injEq .. ▸ hok)
          refine ⟨by rw [← h1, ← h2], Or.inr ⟨?_, _, h2.symm⟩⟩
          intro hd
          apply hcond
          by_cases hns : ns = "completed"
          · rw [if_pos hns] at hd
            exact ⟨fun _ => hd, fun _ => hns⟩
          · rw [if_neg hns] at hd
            constructor
            · intro h; exact absurd h hns
            · intro h
              rw [hd] at h
              exact absurd h (by simp)

theorem hasFile_writeFileTo (files : List (String × List Char)) (n : String)
    (c : List Char) : hasFile (writeFileTo files n c) n = true := by
  rw [hasFile_iff_countP_pos, countP_writeFileTo]
  omega

theorem hasFile_eq_false_iff (files : List (String × List Char)) (n : String) :
    hasFile files n = false ↔ files.countP (nameIs n) = 0 := by
  rw [← Bool.not_eq_true, hasFile_iff_countP_pos]
  omega

deriving instance DecidableEq for Except

/-! ## Concrete fixtures for counterexamples and witnesses -/

def rawStub : List Char := ("---\nstatus: open\ntitle: A\n---\nx\n").data

def rawC3 : List Char :=
  ("---\nstatus: in_progress\ntitle: T\nworkingDir: projectA\n---\nbody text\n").data

def rawC3Review : List Char :=
  ("---\nstatus: review\ntitle: T\n---\nbody text\n").data

def rawC3InProgress : List Char :=
  ("---\nstatus: in_progress\ntitle: T\nworkingDir: projB\n---\nbody text\n").data

/-- The workingDir value recorded in a raw task file, if any. -/
def metaWorkingDir (raw : List Char) : Option (List Char) :=
  (matterParse raw).bind (fun pr => lookupVal "workingDir".data pr.1)

def rawW1Completed : List Char :=
  ("---\nstatus: completed\ntitle: A\n---\nx\n").data

def rawW2Ready : List Char :=
  ("---\nstatus: ready\ntitle: A\n---\nx\n").data

/-- Project prefixes made only of regex-literal characters, for which the
interpolated pattern `^<pfx>-(\d+)\.md$` is literal shape matching. -/
def regexLiteralStr (s : String) : Prop :=
  ∀ c ∈ s.data, (c.isAlpha || c.isDigit) = true

instance (s : String) : Decidable (regexLiteralStr s) := by
  unfold regexLiteralStr
  infer_instance

/-! ## Claims -/

/-- C5: for every metadata record without absent-marker values and every
body, decode (encode (metadata, body)) reproduces exactly the same metadata
pairs and the byte-identical body, including values with colons, brackets,
leading quotes or dashes (which encode quotes); reading the pairs back
yields the original record. -/
theorem frontmatter_roundtrip (fm : Frontmatter) (body : List Char) :
    matterParse (matterStringify (fmPairs fm) body) = some (fmPairs fm, body) ∧
    fmOfPairs (fmPairs fm) = fm :=
  ⟨matterParse_stringify (fmPairs fm) body (fmPairs_keys_wf fm),
    fmOfPairs_fmPairs fm⟩

/-- C10: both the core parseTask and TaskService.parseTask return status
"open" whenever the frontmatter lacks a status field or its value is falsy
(empty); parsing is a pure function of the file content, so the file is
not modified. -/
theorem parseTask_status_default (ps : List (List Char × List Char))
    (body : List Char) (p stem : String)
    (h : lookupVal "status".data ps = none ∨ lookupVal "status".data ps = some []) :
    (parseTaskData ps body p).status = "open" ∧
    (tsParseTaskData ps body stem).status = "open" := by
  have hf : falsyStr (lookupVal "status".data ps) = true := by
    rcases h with h | h <;> simp [falsyStr, h]
  constructor <;> simp [parseTaskData, tsParseTaskData, hf]

theorem parseTask_status_default_witness :
    (lookupVal "status".data [("title".data, "T".data)] = none ∨
      lookupVal "status".data [("title".data, "T".data)] = some []) ∧
    ((parseTaskData [("title".data, "T".data)] "b".data "p").status = "open" ∧
     (tsParseTaskData [("title".data, "T".data)] "b".data "s").status = "open") :=
  ⟨Or.inl (by decide),
    parseTask_status_default [("title".data, "T".data)] "b".data "p" "s"
      (Or.inl (by decide))⟩

/-- C9: getNextTaskNumber wraps both directory enumerations in one try
block, so when the open listing succeeds but reading the completed
directory fails, every match already found in open is discarded and the
result is the padded representation of 1. -/
theorem getNextTaskNumber_single_try (o : List String) (pfx : String)
    (padding : Nat) :
    getNextTaskNumber (some o) none pfx padding =
      getNextTaskNumber (some []) (some []) pfx padding ∧
    getNextTaskNumber (some o) none pfx padding = padStart "1" padding '0' := by
  have h1 : getNextTaskNumber (some o) none pfx padding =
      padStart (toString (0 + 1)) padding '0' := rfl
  have h2 : getNextTaskNumber (some []) (some []) pfx padding =
      padStart (toString (0 + 1)) padding '0' := rfl
  have h3 : toString ((0 : Nat) + 1) = "1" := by decide
  exact ⟨h1.trans h2.symm, by rw [h1, h3]⟩

/-- C6: getNextTaskNumber matches exactly the filenames of shape
prefix-digits.md across both listings (everything else is ignored), and
returns max(matched)+1 zero-padded to the configured width; with no match
it returns padded 1; the value is never truncated — the decimal
representation of max+1 is a suffix of the result, whose length is the
maximum of the padding and the representation's length.  (The model matches
the interpolated regex literally, faithful for prefixes made of
regex-literal characters.) -/
theorem getNextTaskNumber_correct (o c : List String) (pfx : String)
    (padding : Nat) (_hp : regexLiteralStr pfx) :
    (∀ name n, matchTaskNumber pfx name = some n ↔ taskNumberShape pfx name n) ∧
    getNextTaskNumber (some o) (some c) pfx padding =
      padStart (toString (maxTaskNumber pfx (o ++ c) + 1)) padding '0' ∧
    (∀ f ∈ o ++ c, ∀ n, matchTaskNumber pfx f = some n →
      n ≤ maxTaskNumber pfx (o ++ c)) ∧
    (maxTaskNumber pfx (o ++ c) = 0 ∨
      ∃ f ∈ o ++ c, matchTaskNumber pfx f = some (maxTaskNumber pfx (o ++ c))) ∧
    ((∀ f ∈ o ++ c, matchTaskNumber pfx f = none) →
      getNextTaskNumber (some o) (some c) pfx padding = padStart "1" padding '0') ∧
    (toString (maxTaskNumber pfx (o ++ c) + 1)).data <:+
      (getNextTaskNumber (some o) (some c) pfx padding).data ∧
    (getNextTaskNumber (some o) (some c) pfx padding).data.length =
      max padding (toString (maxTaskNumber pfx (o ++ c) + 1)).data.length := by
  refine ⟨fun name n => matchTaskNumber_iff pfx name n, rfl,
    fun f hf n hm => foldl_bumpMax_ge_mem pfx (o ++ c) 0 f n hf hm,
    foldl_bumpMax_attained pfx (o ++ c) 0, ?_, ?_, ?_⟩
  · intro hnone
    have hz : maxTaskNumber pfx (o ++ c) = 0 :=
      foldl_bumpMax_all_none pfx (o ++ c) 0 hnone
    have h3 : toString ((0 : Nat) + 1) = "1" := by decide
    show padStart (toString (maxTaskNumber pfx (o ++ c) + 1)) padding '0' = _
    rw [hz, h3]
  · exact ⟨List.replicate (padding -
      (toString (maxTaskNumber pfx (o ++ c) + 1)).data.length) '0', rfl⟩
  · show (List.replicate (padding -
      (toString (maxTaskNumber pfx (o ++ c) + 1)).data.length) '0' ++
      (toString (maxTaskNumber pfx (o ++ c) + 1)).data).length = _
    rw [List.length_append, List.length_replicate]
    omega

theorem getNextTaskNumber_correct_witness :
    regexLiteralStr "TASK" ∧
    ((∀ name n, matchTaskNumber "TASK" name = some n ↔
        taskNumberShape "TASK" name n) ∧
     getNextTaskNumber (some ["TASK-9999.md"]) (some []) "TASK" 4 =
       padStart (toString (maxTaskNumber "TASK" (["TASK-9999.md"] ++ []) + 1)) 4 '0' ∧
     (∀ f ∈ ["TASK-9999.md"] ++ [], ∀ n, matchTaskNumber "TASK" f = some n →
       n ≤ maxTaskNumber "TASK" (["TASK-9999.md"] ++ [])) ∧
     (maxTaskNumber "TASK" (["TASK-9999.md"] ++ []) = 0 ∨
       ∃ f ∈ ["TASK-9999.md"] ++ [], matchTaskNumber "TASK" f =
         some (maxTaskNumber "TASK" (["TASK-9999.md"] ++ []))) ∧
     ((∀ f ∈ ["TASK-9999.md"] ++ [], matchTaskNumber "TASK" f = none) →
       getNextTaskNumber (some ["TASK-9999.md"]) (some []) "TASK" 4 =
         padStart "1" 4 '0') ∧
     (toString (maxTaskNumber "TASK" (["TASK-9999.md"] ++ []) + 1)).data <:+
       (getNextTaskNumber (some ["TASK-9999.md"]) (some []) "TASK" 4).data ∧
     (getNextTaskNumber (some ["TASK-9999.md"]) (some []) "TASK" 4).data.length =
       max 4 (toString (maxTaskNumber "TASK" (["TASK-9999.md"] ++ []) + 1)).data.length) ∧
    getNextTaskNumber (some ["TASK-9999.md"]) (some []) "TASK" 4 = "10000" :=
  ⟨by decide, getNextTaskNumber_correct ["TASK-9999.md"] [] "TASK" 4 (by decide),
    by decide⟩

/-- C7 (amended): writing a link and resolving it returns the original
target root with isLinked = true, for every existing target root OTHER THAN
the project directory itself — when the two coincide the recorded relative
path is empty, which resolveSabinDir rejects as a missing sabinDir field
(see the counterexample). -/
theorem resolve_writeSabinLink (projectRoot target : List String)
    (hc : canonicalPath target) (hne : projectRoot ≠ target) :
    resolveSabinDir projectRoot (.file (some (writeSabinLink projectRoot target))) =
      .ok ⟨target, true, projectRoot⟩ := by
  have hred : resolveSabinDir projectRoot
      (.file (some (writeSabinLink projectRoot target))) =
      if pathRelative projectRoot target = [] then
        .error ".sabin file must contain \"sabinDir\" field"
      else .ok ⟨pathResolve projectRoot (pathRelative projectRoot target), true,
        projectRoot⟩ := rfl
  have hrel : pathRelative projectRoot target ≠ [] := by
    rw [Ne, pathRelative_eq_nil_iff]
    exact hne
  rw [hred, if_neg hrel]
  have hres := pathResolve_pathRelative projectRoot target [] hc
  simp only [List.nil_append] at hres
  rw [hres]

/-- C7 counterexample: with the target root equal to the project directory
(both legitimate directories), writeSabinLink records the empty relative
path and resolution fails instead of returning the target. -/
theorem resolve_writeSabinLink_self_cex :
    resolveSabinDir ["home", "u"]
        (.file (some (writeSabinLink ["home", "u"] ["home", "u"]))) =
      .error ".sabin file must contain \"sabinDir\" field" := by decide

theorem resolve_writeSabinLink_witness :
    canonicalPath ["p", ".sabin"] ∧ (["a", "b"] : List String) ≠ ["p", ".sabin"] ∧
    resolveSabinDir ["a", "b"]
        (.file (some (writeSabinLink ["a", "b"] ["p", ".sabin"]))) =
      .ok ⟨["p", ".sabin"], true, ["a", "b"]⟩ :=
  ⟨by decide, by decide,
    resolve_writeSabinLink ["a", "b"] ["p", ".sabin"] (by decide) (by decide)⟩

/-- C8 (amended): when the link file holds malformed JSON or JSON whose
sabinDir field is missing or empty, the CORE resolveSabinDir fails with a
descriptive error and never falls back; the extension's
TaskService.resolveSabinDir instead swallows the failure and falls back to
workspaceRoot/.sabin with isLinked = false (see the counterexample). -/
theorem resolveSabinDir_broken_link (root ws : List String)
    (parsed : Option SabinLinkConfig)
    (h : parsed = none ∨ parsed = some ⟨none⟩ ∨ parsed = some ⟨some []⟩) :
    (resolveSabinDir root (.file parsed) = .error "Unexpected token in JSON" ∨
     resolveSabinDir root (.file parsed) =
       .error ".sabin file must contain \"sabinDir\" field") ∧
    tsResolveSabinDir ws false (.file parsed) = (ws ++ [".sabin"], false) := by
  rcases h with h | h | h <;> subst h
  · exact ⟨Or.inl rfl, rfl⟩
  · exact ⟨Or.inr rfl, rfl⟩
  · exact ⟨Or.inr rfl, rfl⟩

/-- C8 counterexample: on a link file with malformed JSON the extension's
resolver silently treats it as "no link" — it returns the fallback root
with isLinked = false instead of failing. -/
theorem tsResolve_fallback_cex :
    tsResolveSabinDir ["w"] false (.file none) = (["w", ".sabin"], false) := by
  decide

theorem resolveSabinDir_broken_link_witness :
    ((none : Option SabinLinkConfig) = none ∨
      (none : Option SabinLinkConfig) = some ⟨none⟩ ∨
      (none : Option SabinLinkConfig) = some ⟨some []⟩) ∧
    ((resolveSabinDir ["r"] (.file none) = .error "Unexpected token in JSON" ∨
      resolveSabinDir ["r"] (.file none) =
        .error ".sabin file must contain \"sabinDir\" field") ∧
     tsResolveSabinDir ["w"] false (.file none) = (["w", ".sabin"], false)) :=
  ⟨Or.inl rfl, resolveSabinDir_broken_link ["r"] ["w"] none (Or.inl rfl)⟩

/-- C2: the CLI createTask probes tasks/open/ and the legacy tasks/resolved/
directory, never tasks/completed/: with JIRA-123.md already present in the
completed subdirectory the call succeeds and writes a second file for the
id into open/, instead of failing with a duplicate-id error before any
write; the extension's TaskService probe (which does check completed/)
rejects the same input. -/
theorem createTask_misses_completed_duplicate :
    (createTaskCli ⟨[], [("JIRA-123.md", rawStub)], []⟩ (some "JIRA-123")
        "y" "c" "TASK" 4).isOk = true ∧
    (createTaskCli ⟨[], [("JIRA-123.md", rawStub)], []⟩ (some "JIRA-123")
        "y" "c" "TASK" 4).toOption.map
      (fun p => (hasFile p.1.openFiles "JIRA-123.md",
        hasFile p.1.completedFiles "JIRA-123.md")) = some (true, true) ∧
    tsCreateDuplicateCheck [] ["JIRA-123.md"] "JIRA-123" =
      .error "Task JIRA-123 already exists in completed/" := by
  refine ⟨by decide, by decide, by decide⟩

/-- C3: transitioning to in_progress under a linked root does set
workingDir, but the core parseTask omits the workingDir field when loading
(config.ts returns only status/title/plan/content/path), so any other
transition rewrites the file WITHOUT its previously recorded workingDir:
updating the fixture from in_progress to review erases workingDir:
projectA. -/
theorem updateStatus_drops_workingDir :
    metaWorkingDir rawC3 = some "projectA".data ∧
    updateStatus ⟨[("TASK-0001.md", rawC3)], []⟩ false "" "TASK-0001" "review" =
      .ok (⟨[("TASK-0001.md", rawC3Review)], []⟩,
        [FsOp.writeFile Subdir.openSub "TASK-0001.md" rawC3Review]) ∧
    metaWorkingDir rawC3Review = none ∧
    updateStatus ⟨[("TASK-0001.md", rawC3)], []⟩ true "projB" "TASK-0001"
        "in_progress" =
      .ok (⟨[("TASK-0001.md", rawC3InProgress)], []⟩,
        [FsOp.writeFile Subdir.openSub "TASK-0001.md" rawC3InProgress]) ∧
    metaWorkingDir rawC3InProgress = some "projB".data := by
  refine ⟨by decide, by decide, by decide, by decide, by decide⟩

/-- C1 (amended): provided the store's find resolves to the id's own file
id.md (no earlier-listed filename merely CONTAINS the id — the find matches
by substring, open listing first) and the root satisfies the one-file-per-id
invariant, then after a successful updateStatus exactly one file for the id
exists across both subdirectories, and it lies in the completed
subdirectory exactly when the new status is "completed" (the open
subdirectory otherwise). -/
theorem updateStatus_status_dir_consistency (st : TasksDir) (lk : Bool)
    (wd id ns : String) (st' : TasksDir) (tr : List FsOp) (d : Subdir)
    (c : List Char)
    (hfind : findTaskFile st id = some (d, id ++ ".md", c))
    (huniq : countName st (id ++ ".md") = 1)
    (hok : updateStatus st lk wd id ns = .ok (st', tr)) :
    countName st' (id ++ ".md") = 1 ∧
    (ns = "completed" → hasFile st'.completedFiles (id ++ ".md") = true ∧
      hasFile st'.openFiles (id ++ ".md") = false) ∧
    (ns ≠ "completed" → hasFile st'.openFiles (id ++ ".md") = true ∧
      hasFile st'.completedFiles (id ++ ".md") = false) := by
  obtain ⟨d2, f2, c2, hfind2, hst2, hcase⟩ :=
    updateStatus_ok_inv st lk wd id ns st' tr hok
  have heq := hfind.symm.trans hfind2
  simp only [Option.some.injEq, Prod.mk.injEq] at heq
  obtain ⟨hd2, hf2, hc2⟩ := heq
  subst hd2
  subst hf2
  subst hc2
  subst hst2
  cases d with
  | openSub =>
    have hmem : (id ++ ".md", c) ∈ st.openFiles := findTaskFile_open st id _ c hfind
    have hop : 0 < st.openFiles.countP (nameIs (id ++ ".md")) := by
      rw [← hasFile_iff_countP_pos]
      exact hasFile_of_mem _ _ _ hmem
    have hcounts : st.openFiles.countP (nameIs (id ++ ".md")) = 1 ∧
        st.completedFiles.countP (nameIs (id ++ ".md")) = 0 := by
      unfold countName at huniq
      omega
    rcases hcase with ⟨hdt, nc, htr⟩ | ⟨hdt, nc, htr⟩
    · -- in place, in open: the new status is not "completed"
      have hns : ns ≠ "completed" := by
        intro h
        rw [if_pos h] at hdt
        exact absurd hdt (by simp)
      subst htr
      simp only [applyOps, List.foldl_cons, List.foldl_nil, applyOp]
      refine ⟨?_, fun h => absurd h hns, fun _ => ⟨hasFile_writeFileTo _ _ _, ?_⟩⟩
      · simp only [countName, countP_writeFileTo, hcounts.1, hcounts.2]
        omega
      · rw [hasFile_eq_false_iff]
        exact hcounts.2
    · -- move from open to completed: the new status is "completed"
      have hns : ns = "completed" := by
        by_contra h
        rw [if_neg h] at hdt
        exact hdt rfl
      rw [if_pos hns] at htr
      subst htr
      simp only [applyOps, List.foldl_cons, List.foldl_nil, applyOp]
      refine ⟨?_, fun _ => ⟨hasFile_writeFileTo _ _ _, ?_⟩,
        fun h => absurd hns h⟩
      · simp only [countName, countP_writeFileTo, countP_unlinkFrom, hcounts.2]
        omega
      · rw [hasFile_eq_false_iff]
        exact countP_unlinkFrom _ _
  | completedSub =>
    have hmem : (id ++ ".md", c) ∈ st.completedFiles :=
      findTaskFile_completed st id _ c hfind
    have hcp : 0 < st.completedFiles.countP (nameIs (id ++ ".md")) := by
      rw [← hasFile_iff_countP_pos]
      exact hasFile_of_mem _ _ _ hmem
    have hcounts : st.completedFiles.countP (nameIs (id ++ ".md")) = 1 ∧
        st.openFiles.countP (nameIs (id ++ ".md")) = 0 := by
      unfold countName at huniq
      omega
    rcases hcase with ⟨hdt, nc, htr⟩ | ⟨hdt, nc, htr⟩
    · -- in place, in completed: the new status is "completed"
      have hns : ns = "completed" := by
        by_contra h
        rw [if_neg h] at hdt
        exact absurd hdt (by simp)
      subst htr
      simp only [applyOps, List.foldl_cons, List.foldl_nil, applyOp]
      refine ⟨?_, fun _ => ⟨hasFile_writeFileTo _ _ _, ?_⟩,
        fun h => absurd hns h⟩
      · simp only [countName, countP_writeFileTo, hcounts.1, hcounts.2]
        omega
      · rw [hasFile_eq_false_iff]
        exact hcounts.2
    · -- move from completed to open: the new status is not "completed"
      have hns : ns ≠ "completed" := by
        intro h
        rw [if_pos h] at hdt
        exact hdt rfl
      rw [if_neg hns] at htr
      subst htr
      simp only [applyOps, List.foldl_cons, List.foldl_nil, applyOp]
      refine ⟨?_, fun h => absurd h hns, fun _ => ⟨hasFile_writeFileTo _ _ _, ?_⟩⟩
      · simp only [countName, countP_writeFileTo, countP_unlinkFrom, hcounts.2]
        omega
      · rw [hasFile_eq_false_iff]
        exact countP_unlinkFrom _ _

/-- C1 counterexample: TASK-0001 is present exactly once (in open), yet
because TASK-00011.md is listed first and contains "TASK-0001" as a
substring, updateStatus(…, "completed") succeeds by moving the WRONG file:
afterwards TASK-0001.md is still in the open subdirectory, not in the
completed one implied by the new status. -/
theorem updateStatus_shadowed_id_cex :
    countName ⟨[("TASK-00011.md", rawStub), ("TASK-0001.md", rawStub)], []⟩
      "TASK-0001.md" = 1 ∧
    (updateStatus ⟨[("TASK-00011.md", rawStub), ("TASK-0001.md", rawStub)], []⟩
        false "" "TASK-0001" "completed").toOption.map
      (fun p => (hasFile p.1.openFiles "TASK-0001.md",
        hasFile p.1.completedFiles "TASK-0001.md")) = some (true, false) := by
  refine ⟨by decide, by decide⟩

theorem updateStatus_status_dir_consistency_witness :
    findTaskFile ⟨[("T-1.md", rawStub)], []⟩ "T-1" =
      some (Subdir.openSub, "T-1" ++ ".md", rawStub) ∧
    countName ⟨[("T-1.md", rawStub)], []⟩ ("T-1" ++ ".md") = 1 ∧
    updateStatus ⟨[("T-1.md", rawStub)], []⟩ false "" "T-1" "completed" =
      .ok (⟨[], [("T-1.md", rawW1Completed)]⟩,
        [FsOp.writeFile Subdir.completedSub "T-1.md" rawW1Completed,
         FsOp.unlinkFile Subdir.openSub "T-1.md"]) ∧
    (countName ⟨[], [("T-1.md", rawW1Completed)]⟩ ("T-1" ++ ".md") = 1 ∧
     ("completed" = "completed" →
       hasFile [("T-1.md", rawW1Completed)] ("T-1" ++ ".md") = true ∧
       hasFile ([] : List (String × List Char)) ("T-1" ++ ".md") = false) ∧
     ("completed" ≠ "completed" →
       hasFile ([] : List (String × List Char)) ("T-1" ++ ".md") = true ∧
       hasFile [("T-1.md", rawW1Completed)] ("T-1" ++ ".md") = false)) :=
  ⟨by decide, by decide, by decide,
    updateStatus_status_dir_consistency ⟨[("T-1.md", rawStub)], []⟩ false ""
      "T-1" "completed" ⟨[], [("T-1.md", rawW1Completed)]⟩
      [FsOp.writeFile Subdir.completedSub "T-1.md" rawW1Completed,
       FsOp.unlinkFile Subdir.openSub "T-1.md"] Subdir.openSub rawStub
      (by decide) (by decide) (by decide)⟩

/-- C4: every successful updateStatus is either a single in-place write, or
— when the task crosses the open/completed boundary — a write of the task
at the new path FIRST followed by the unlink of the old path; after every
prefix of the operation trace the task's file exists in at least one of the
two subdirectories, so a crash between the two steps leaves at worst a
duplicate, never a total loss. -/
theorem updateStatus_write_before_delete (st : TasksDir) (lk : Bool)
    (wd id ns : String) (st' : TasksDir) (tr : List FsOp)
    (hok : updateStatus st lk wd id ns = .ok (st', tr)) :
    ∃ d fname c, findTaskFile st id = some (d, fname, c) ∧
      ((∃ nc, tr = [FsOp.writeFile d fname nc]) ∨
       (∃ d2 nc, d2 ≠ d ∧
         tr = [FsOp.writeFile d2 fname nc, FsOp.unlinkFile d fname])) ∧
      (∀ k, k ≤ tr.length →
        hasFile (applyOps st (tr.take k)).openFiles fname = true ∨
        hasFile (applyOps st (tr.take k)).completedFiles fname = true) := by
  obtain ⟨d, fname, c, hfind, hst, hcase⟩ :=
    updateStatus_ok_inv st lk wd id ns st' tr hok
  have hmem0 : hasFile (applyOps st []).openFiles fname = true ∨
      hasFile (applyOps st []).completedFiles fname = true := by
    simp only [applyOps, List.foldl_nil]
    cases d with
    | openSub =>
      exact Or.inl (hasFile_of_mem _ _ _ (findTaskFile_open st id fname c hfind))
    | completedSub =>
      exact Or.inr
        (hasFile_of_mem _ _ _ (findTaskFile_completed st id fname c hfind))
  refine ⟨d, fname, c, hfind, ?_, ?_⟩
  · rcases hcase with ⟨_, nc, htr⟩ | ⟨hne, nc, htr⟩
    · exact Or.inl ⟨nc, htr⟩
    · exact Or.inr ⟨_, nc, fun h => hne h.symm, htr⟩
  · rcases hcase with ⟨_, nc, htr⟩ | ⟨hne, nc, htr⟩ <;> subst htr <;> intro k hk
    · -- in place: trace length 1
      simp only [List.length_cons, List.length_nil, Nat.zero_add] at hk
      interval_cases k
      · exact hmem0
      · simp only [List.take_succ_cons, List.take_nil, applyOps, List.foldl_cons,
          List.foldl_nil]
        cases d with
        | openSub => exact Or.inl (by simp [applyOp, hasFile_writeFileTo])
        | completedSub => exact Or.inr (by simp [applyOp, hasFile_writeFileTo])
    · -- move: trace length 2, write first then unlink
      by_cases hns : ns = "completed"
      · rw [if_pos hns] at hne ⊢
        have hd : d = Subdir.openSub := subdir_ne_completed d hne
        subst hd
        simp only [List.length_cons, List.length_nil, Nat.zero_add] at hk
        interval_cases k
        · exact hmem0
        · simp only [List.take_succ_cons, List.take_nil, applyOps,
            List.foldl_cons, List.foldl_nil]
          exact Or.inr (by simp [applyOp, hasFile_writeFileTo])
        · simp only [List.take_succ_cons, List.take_nil, applyOps,
            List.foldl_cons, List.foldl_nil]
          exact Or.inr (by simp [applyOp, hasFile_writeFileTo])
      · rw [if_neg hns] at hne ⊢
        have hd : d = Subdir.completedSub := by
          cases d with
          | openSub => exact absurd rfl hne
          | completedSub => rfl
        subst hd
        simp only [List.length_cons, List.length_nil, Nat.zero_add] at hk
        interval_cases k
        · exact hmem0
        · simp only [List.take_succ_cons, List.take_nil, applyOps,
            List.foldl_cons, List.foldl_nil]
          exact Or.inl (by simp [applyOp, hasFile_writeFileTo])
        · simp only [List.take_succ_cons, List.take_nil, applyOps,
            List.foldl_cons, List.foldl_nil]
          exact Or.inl (by simp [applyOp, hasFile_writeFileTo])

theorem updateStatus_write_before_delete_witness :
    updateStatus ⟨[("T-2.md", rawStub)], []⟩ false "" "T-2" "ready" =
      .ok (⟨[("T-2.md", rawW2Ready)], []⟩,
        [FsOp.writeFile Subdir.openSub "T-2.md" rawW2Ready]) ∧
    (∃ d fname c, findTaskFile ⟨[("T-2.md", rawStub)], []⟩ "T-2" =
        some (d, fname, c) ∧
      ((∃ nc, [FsOp.writeFile Subdir.openSub "T-2.md" rawW2Ready] =
          [FsOp.writeFile d fname nc]) ∨
       (∃ d2 nc, d2 ≠ d ∧
         [FsOp.writeFile Subdir.openSub "T-2.md" rawW2Ready] =
           [FsOp.writeFile d2 fname nc, FsOp.unlinkFile d fname])) ∧
      (∀ k, k ≤ ([FsOp.writeFile Subdir.openSub "T-2.md" rawW2Ready]).length →
        hasFile (applyOps ⟨[("T-2.md", rawStub)], []⟩
          (([FsOp.writeFile Subdir.openSub "T-2.md" rawW2Ready]).take k)).openFiles
            fname = true ∨
        hasFile (applyOps ⟨[("T-2.md", rawStub)], []⟩
          (([FsOp.writeFile Subdir.openSub "T-2.md" rawW2Ready]).take k)).completedFiles
            fname = true)) :=
  ⟨by decide,
    updateStatus_write_before_delete ⟨[("T-2.md", rawStub)], []⟩ false "" "T-2"
      "ready" ⟨[("T-2.md", rawW2Ready)], []⟩
      [FsOp.writeFile Subdir.openSub "T-2.md" rawW2Ready] (by decide)⟩

end Sabin
